import Mathlib

/-!
Verification of the external-merge-sort distinct-count pipeline
(`task_1/main.py`): run building, k-way merging, run reduction, unique
counting and the orchestrator.

Modelling conventions:
* a record (packed IPv6 address, `bytes` of length 16) is a `List Nat` of
  its byte values; Python's `bytes` ordering is byte-lexicographic and is
  translated as `bytesLt`;
* a run file is modelled by the sequence of records it contains
  (`List Key`); for the claims about malformed files a byte-level model
  (`List Nat` with reads of `RECORD_SIZE` bytes) is used as well;
* the `heapq` min-heap over `(record, file_index)` pairs pops the unique
  minimal pair: smallest record, ties broken by the smaller file index.
  `popMin` reproduces exactly that choice on the list-of-cursors state;
* the `while len(runs) > fan_in` loop of `reduce_runs` is modelled with a
  pass-count fuel; `none` means the loop has not exited within the given
  number of passes (divergence when this holds for every fuel).
-/

namespace IPv6Uniq

/-- IPv6 занимает ровно 16 байт (128 бит) в packed-форме (`RECORD_SIZE = 16`). -/
def RECORD_SIZE : Nat := 16

/-- A packed record: the byte values of a Python `bytes` object. -/
abbrev Key := List Nat

/-- Python `bytes` comparison `a < b`: byte-lexicographic, a strict prefix
is smaller. -/
def bytesLt : Key → Key → Bool
  | _, [] => false
  | [], _ :: _ => true
  | a :: as, b :: bs => a < b || (a == b && bytesLt as bs)

/-- Non-strict byte-lexicographic order, `a <= b` as Python evaluates it. -/
def keyLe (a b : Key) : Prop := bytesLt b a = false

instance : DecidableRel keyLe := fun a b =>
  inferInstanceAs (Decidable (bytesLt b a = false))

theorem bytesLt_irrefl : ∀ a : Key, bytesLt a a = false := by
  intro a
  induction a with
  | nil => rfl
  | cons x xs ih => simp [bytesLt, ih]

theorem bytesLt_trans : ∀ a b c : Key,
    bytesLt a b = true → bytesLt b c = true → bytesLt a c = true := by
  intro a
  induction a with
  | nil =>
    intro b c hab hbc
    cases b with
    | nil => exact absurd hab (by simp [bytesLt])
    | cons y ys =>
      cases c with
      | nil => exact absurd hbc (by simp [bytesLt])
      | cons z zs => simp [bytesLt]
  | cons x xs ih =>
    intro b c hab hbc
    cases b with
    | nil => exact absurd hab (by simp [bytesLt])
    | cons y ys =>
      cases c with
      | nil => exact absurd hbc (by simp [bytesLt])
      | cons z zs =>
        simp only [bytesLt, Bool.or_eq_true, Bool.and_eq_true, decide_eq_true_eq,
          beq_iff_eq] at hab hbc ⊢
        rcases hab with h1 | ⟨h1, h1'⟩
        · rcases hbc with h2 | ⟨h2, _⟩
          · exact Or.inl (Nat.lt_trans h1 h2)
          · exact Or.inl (h2 ▸ h1)
        · rcases hbc with h2 | ⟨h2, h2'⟩
          · exact Or.inl (h1 ▸ h2)
          · exact Or.inr ⟨h1.trans h2, ih ys zs h1' h2'⟩

theorem bytesLt_neg_trans : ∀ c b a : Key,
    bytesLt b a = false → bytesLt c b = false → bytesLt c a = false := by
  intro c
  induction c with
  | nil =>
    intro b a h1 h2
    cases b with
    | nil => exact h1
    | cons y ys => exact absurd h2 (by simp [bytesLt])
  | cons z zs ih =>
    intro b a h1 h2
    cases b with
    | nil =>
      cases a with
      | nil => rfl
      | cons x xs => exact absurd h1 (by simp [bytesLt])
    | cons y ys =>
      cases a with
      | nil => rfl
      | cons x xs =>
        simp only [bytesLt, Bool.or_eq_false_iff, Bool.and_eq_false_iff,
          decide_eq_false_iff_not, Nat.not_lt, beq_eq_false_iff_ne, ne_eq] at h1 h2 ⊢
        obtain ⟨hxy, h1'⟩ := h1
        obtain ⟨hyz, h2'⟩ := h2
        refine ⟨Nat.le_trans hxy hyz, ?_⟩
        by_cases hzx : z = x
        · subst hzx
          have hyx : y = z := Nat.le_antisymm hyz hxy
          subst hyx
          rcases h1' with h | h
          · exact absurd rfl h
          · rcases h2' with h' | h'
            · exact absurd rfl h'
            · exact Or.inr (ih ys xs h h')
        · exact Or.inl hzx

theorem bytesLt_antisymm : ∀ a b : Key,
    bytesLt a b = false → bytesLt b a = false → a = b := by
  intro a
  induction a with
  | nil =>
    intro b h1 _
    cases b with
    | nil => rfl
    | cons y ys => exact absurd h1 (by simp [bytesLt])
  | cons x xs ih =>
    intro b h1 h2
    cases b with
    | nil => exact absurd h2 (by simp [bytesLt])
    | cons y ys =>
      simp only [bytesLt, Bool.or_eq_false_iff, Bool.and_eq_false_iff,
        decide_eq_false_iff_not, Nat.not_lt, beq_eq_false_iff_ne, ne_eq] at h1 h2
      obtain ⟨hyx, h1'⟩ := h1
      obtain ⟨hxy, h2'⟩ := h2
      have hx : x = y := Nat.le_antisymm hxy hyx
      subst hx
      rcases h1' with h | h
      · exact absurd rfl h
      · rcases h2' with h' | h'
        · exact absurd rfl h'
        · exact congrArg (x :: ·) (ih ys h h')

theorem bytesLt_asymm {a b : Key} (h : bytesLt a b = true) : bytesLt b a = false := by
  by_contra hc
  have hba : bytesLt b a = true := by
    cases hv : bytesLt b a with
    | false => exact absurd hv hc
    | true => rfl
  have := bytesLt_trans a b a h hba
  rw [bytesLt_irrefl] at this
  exact Bool.false_ne_true this

theorem keyLe_refl (a : Key) : keyLe a a := bytesLt_irrefl a

theorem keyLe_trans {a b c : Key} (h1 : keyLe a b) (h2 : keyLe b c) : keyLe a c :=
  bytesLt_neg_trans c b a h1 h2

theorem keyLe_antisymm {a b : Key} (h1 : keyLe a b) (h2 : keyLe b a) : a = b :=
  bytesLt_antisymm a b h2 h1

theorem keyLe_total (a b : Key) : keyLe a b ∨ keyLe b a := by
  cases h : bytesLt b a with
  | false => exact Or.inl h
  | true => exact Or.inr (bytesLt_asymm h)

theorem keyLe_of_bytesLt {a b : Key} (h : bytesLt a b = true) : keyLe a b :=
  bytesLt_asymm h

theorem keyLe_of_not_bytesLt {a b : Key} (h : bytesLt b a = false) : keyLe a b := h

instance : IsTrans Key keyLe := ⟨fun _ _ _ => keyLe_trans⟩

instance : IsTotal Key keyLe := ⟨keyLe_total⟩

/-- One step of the `heapq`-based k-way merge of `merge_runs_to_file` /
`count_unique_across_runs`.  The state is, for each input file, the
sequence of its not-yet-emitted records (the record currently held in the
heap followed by the unread file contents).  The heap over
`(record, file_index)` tuples pops the unique minimum: the smallest record
and, among equal records, the smallest file index — i.e. the head of the
first nonempty cursor whose head is not strictly beaten by any later one. -/
def popMin : List (List Key) → Option (Key × List (List Key))
  | [] => none
  | [] :: rest =>
    match popMin rest with
    | none => none
    | some (k, rest') => some (k, [] :: rest')
  | (k :: t) :: rest =>
    match popMin rest with
    | none => some (k, t :: rest)
    | some (k', rest') =>
      if bytesLt k' k then some (k', (k :: t) :: rest') else some (k, t :: rest)

/-- The emission loop `while heap: rec, i = heappop(heap); ...`, with a
fuel counting the remaining iterations; fuel `>= ` total number of records
makes it run to completion (see the lemmas below). -/
def kwayMergeGo : Nat → List (List Key) → List Key
  | 0, _ => []
  | fuel + 1, runs =>
    match popMin runs with
    | none => []
    | some (k, rest) => k :: kwayMergeGo fuel rest

/-- The full k-way merge over a set of run cursors: the sequence of records
the heap loop emits. -/
def kwayMerge (runs : List (List Key)) : List Key :=
  kwayMergeGo runs.flatten.length runs

/-- `merge_runs_to_file`: the record sequence written to `out_path` is
exactly the k-way merge emission of the input runs. -/
def mergeRunsToFile (runs : List (List Key)) : List Key :=
  kwayMerge runs

theorem popMin_eq_none : ∀ runs : List (List Key), popMin runs = none ↔ runs.flatten = [] := by
  intro runs
  induction runs with
  | nil => simp [popMin]
  | cons r rest ih =>
    cases r with
    | nil =>
      simp only [popMin, List.flatten_cons, List.nil_append]
      cases h : popMin rest with
      | none => simpa using ih.mp h
      | some p =>
        obtain ⟨k, rest'⟩ := p
        constructor
        · intro hfalse; exact absurd hfalse (by simp)
        · intro hflat
          have hn := ih.mpr hflat
          rw [h] at hn
          exact absurd hn (by simp)
    | cons k t =>
      simp only [popMin, List.flatten_cons]
      constructor
      · intro hnone
        split at hnone
        · exact absurd hnone (by simp)
        · split at hnone
          · exact absurd hnone (by simp)
          · exact absurd hnone (by simp)
      · intro hflat
        exact absurd hflat (by simp)

theorem popMin_perm : ∀ (runs : List (List Key)) (k : Key) (rest : List (List Key)),
    popMin runs = some (k, rest) → runs.flatten.Perm (k :: rest.flatten) := by
  intro runs
  induction runs with
  | nil => intro k rest h; simp [popMin] at h
  | cons r rs ih =>
    intro k rest h
    cases r with
    | nil =>
      simp only [popMin] at h
      split at h
      · exact absurd h (by simp)
      · rename_i k' rest' heq
        simp only [Option.some.injEq, Prod.mk.injEq] at h
        obtain ⟨rfl, rfl⟩ := h
        simpa using ih _ _ heq
    | cons x t =>
      simp only [popMin] at h
      split at h
      · rename_i heq
        simp only [Option.some.injEq, Prod.mk.injEq] at h
        obtain ⟨rfl, rfl⟩ := h
        exact List.Perm.refl _
      · rename_i k' rest' heq
        split at h
        · simp only [Option.some.injEq, Prod.mk.injEq] at h
          obtain ⟨rfl, rfl⟩ := h
          have hp := ih _ _ heq
          exact (hp.append_left (x :: t)).trans List.perm_middle
        · simp only [Option.some.injEq, Prod.mk.injEq] at h
          obtain ⟨rfl, rfl⟩ := h
          exact List.Perm.refl _

theorem popMin_length {runs : List (List Key)} {k : Key} {rest : List (List Key)}
    (h : popMin runs = some (k, rest)) : runs.flatten.length = rest.flatten.length + 1 := by
  have := (popMin_perm runs k rest h).length_eq
  simpa using this

theorem popMin_min : ∀ (runs : List (List Key)) (k : Key) (rest : List (List Key)),
    (∀ r ∈ runs, r.Sorted keyLe) → popMin runs = some (k, rest) →
    ∀ x ∈ runs.flatten, keyLe k x := by
  intro runs
  induction runs with
  | nil => intro k rest _ h; simp [popMin] at h
  | cons r rs ih =>
    intro k rest hsort h x hx
    have hsorttl : ∀ q ∈ rs, q.Sorted keyLe :=
      fun q hq => hsort q (List.mem_cons_of_mem _ hq)
    cases r with
    | nil =>
      simp only [popMin] at h
      split at h
      · exact absurd h (by simp)
      · rename_i k' rest' heq
        simp only [Option.some.injEq, Prod.mk.injEq] at h
        obtain ⟨rfl, rfl⟩ := h
        have hx' : x ∈ rs.flatten := by simpa using hx
        exact ih _ _ hsorttl heq x hx'
    | cons y t =>
      have hsorthd : (y :: t).Sorted keyLe := hsort _ (List.mem_cons_self _ _)
      simp only [popMin] at h
      split at h
      · rename_i heq
        simp only [Option.some.injEq, Prod.mk.injEq] at h
        obtain ⟨rfl, rfl⟩ := h
        have hflat : rs.flatten = [] := (popMin_eq_none rs).mp heq
        simp only [List.flatten_cons, List.mem_append, hflat, List.not_mem_nil,
          or_false] at hx
        rcases List.mem_cons.mp hx with hxy | hxt
        · subst hxy; exact keyLe_refl _
        · exact List.rel_of_sorted_cons hsorthd x hxt
      · rename_i k' rest' heq
        have hmin' : ∀ z ∈ rs.flatten, keyLe k' z := ih _ _ hsorttl heq
        split at h
        · rename_i hlt
          simp only [Option.some.injEq, Prod.mk.injEq] at h
          obtain ⟨rfl, rfl⟩ := h
          simp only [List.flatten_cons, List.mem_append] at hx
          rcases hx with hxh | hxj
          · rcases List.mem_cons.mp hxh with hxy | hxt
            · subst hxy; exact keyLe_of_bytesLt hlt
            · exact keyLe_trans (keyLe_of_bytesLt hlt)
                (List.rel_of_sorted_cons hsorthd x hxt)
          · exact hmin' x hxj
        · rename_i hlt
          simp only [Option.some.injEq, Prod.mk.injEq] at h
          obtain ⟨rfl, rfl⟩ := h
          have hyk' : keyLe y k' := by
            cases hv : bytesLt k' y with
            | false => exact hv
            | true => exact absurd hv (by simpa using hlt)
          simp only [List.flatten_cons, List.mem_append] at hx
          rcases hx with hxh | hxj
          · rcases List.mem_cons.mp hxh with hxy | hxt
            · subst hxy; exact keyLe_refl _
            · exact List.rel_of_sorted_cons hsorthd x hxt
          · exact keyLe_trans hyk' (hmin' x hxj)

theorem popMin_sorted : ∀ (runs : List (List Key)) (k : Key) (rest : List (List Key)),
    (∀ r ∈ runs, r.Sorted keyLe) → popMin runs = some (k, rest) →
    ∀ r ∈ rest, r.Sorted keyLe := by
  intro runs
  induction runs with
  | nil => intro k rest _ h; simp [popMin] at h
  | cons r rs ih =>
    intro k rest hsort h
    have hsorttl : ∀ q ∈ rs, q.Sorted keyLe :=
      fun q hq => hsort q (List.mem_cons_of_mem _ hq)
    cases r with
    | nil =>
      simp only [popMin] at h
      split at h
      · exact absurd h (by simp)
      · rename_i k' rest' heq
        simp only [Option.some.injEq, Prod.mk.injEq] at h
        obtain ⟨rfl, rfl⟩ := h
        intro r' hr'
        rcases List.mem_cons.mp hr' with h0 | h0
        · subst h0; exact List.sorted_nil
        · exact ih _ _ hsorttl heq r' h0
    | cons y t =>
      have hsorthd : (y :: t).Sorted keyLe := hsort _ (List.mem_cons_self _ _)
      simp only [popMin] at h
      split at h
      · rename_i heq
        simp only [Option.some.injEq, Prod.mk.injEq] at h
        obtain ⟨rfl, rfl⟩ := h
        intro r' hr'
        rcases List.mem_cons.mp hr' with h0 | h0
        · subst h0; exact hsorthd.of_cons
        · exact hsorttl r' h0
      · rename_i k' rest' heq
        split at h
        · simp only [Option.some.injEq, Prod.mk.injEq] at h
          obtain ⟨rfl, rfl⟩ := h
          intro r' hr'
          rcases List.mem_cons.mp hr' with h0 | h0
          · subst h0; exact hsorthd
          · exact ih _ _ hsorttl heq r' h0
        · simp only [Option.some.injEq, Prod.mk.injEq] at h
          obtain ⟨rfl, rfl⟩ := h
          intro r' hr'
          rcases List.mem_cons.mp hr' with h0 | h0
          · subst h0; exact hsorthd.of_cons
          · exact hsorttl r' h0

theorem kwayMergeGo_perm : ∀ (fuel : Nat) (runs : List (List Key)),
    runs.flatten.length ≤ fuel → (kwayMergeGo fuel runs).Perm runs.flatten := by
  intro fuel
  induction fuel with
  | zero =>
    intro runs h
    have : runs.flatten = [] := List.length_eq_zero.mp (Nat.le_zero.mp h)
    simp [kwayMergeGo, this]
  | succ n ih =>
    intro runs h
    simp only [kwayMergeGo]
    cases hp : popMin runs with
    | none =>
      have : runs.flatten = [] := (popMin_eq_none runs).mp hp
      simp [this]
    | some p =>
      obtain ⟨k, rest⟩ := p
      have hlen := popMin_length hp
      have hrest : rest.flatten.length ≤ n := by omega
      exact ((ih rest hrest).cons k).trans (popMin_perm runs k rest hp).symm

theorem kwayMergeGo_sorted : ∀ (fuel : Nat) (runs : List (List Key)),
    (∀ r ∈ runs, r.Sorted keyLe) → runs.flatten.length ≤ fuel →
    (kwayMergeGo fuel runs).Sorted keyLe := by
  intro fuel
  induction fuel with
  | zero => intro runs _ _; exact List.sorted_nil
  | succ n ih =>
    intro runs hsort h
    simp only [kwayMergeGo]
    cases hp : popMin runs with
    | none => exact List.sorted_nil
    | some p =>
      obtain ⟨k, rest⟩ := p
      have hlen := popMin_length hp
      have hrest : rest.flatten.length ≤ n := by omega
      have hsort' := popMin_sorted runs k rest hsort hp
      rw [List.sorted_cons]
      refine ⟨?_, ih rest hsort' hrest⟩
      intro b hb
      have hbj : b ∈ rest.flatten := ((kwayMergeGo_perm n rest hrest).mem_iff).mp hb
      have hbruns : b ∈ runs.flatten := ((popMin_perm runs k rest hp).mem_iff).mpr
        (List.mem_cons_of_mem _ hbj)
      exact popMin_min runs k rest hsort hp b hbruns

theorem kwayMerge_perm (runs : List (List Key)) : (kwayMerge runs).Perm runs.flatten :=
  kwayMergeGo_perm _ runs (Nat.le_refl _)

theorem kwayMerge_sorted (runs : List (List Key)) (h : ∀ r ∈ runs, r.Sorted keyLe) :
    (kwayMerge runs).Sorted keyLe :=
  kwayMergeGo_sorted _ runs h (Nat.le_refl _)

theorem kwayMerge_length (runs : List (List Key)) :
    (kwayMerge runs).length = (runs.map List.length).sum := by
  have := (kwayMerge_perm runs).length_eq
  simpa [List.length_flatten] using this

/-- A degenerate one-input merge copies the run unchanged. -/
theorem kwayMergeGo_single : ∀ (fuel : Nat) (r : List Key),
    r.length ≤ fuel → kwayMergeGo fuel [r] = r := by
  intro fuel
  induction fuel with
  | zero =>
    intro r h
    have : r = [] := List.length_eq_zero.mp (Nat.le_zero.mp h)
    simp [kwayMergeGo, this]
  | succ n ih =>
    intro r h
    cases r with
    | nil => simp [kwayMergeGo, popMin]
    | cons k t =>
      simp only [kwayMergeGo, popMin]
      have : kwayMergeGo n [t] = t := ih t (by simpa using Nat.le_of_succ_le_succ h)
      simp [this]

theorem mergeRunsToFile_single (r : List Key) : mergeRunsToFile [r] = r := by
  unfold mergeRunsToFile kwayMerge
  exact kwayMergeGo_single _ r (by simp)

/-- The adjacency-deduplicating fold of `count_unique_across_runs`:
`prev` is the `prev: Optional[bytes]` slot (`none` is Python's `None`),
and each emitted record `rec` runs
`if prev != rec: uniq += 1; prev = rec`. -/
def countUniqLoop : Option Key → List Key → Nat
  | _, [] => 0
  | prev, k :: ks =>
    if prev = some k then countUniqLoop prev ks else countUniqLoop (some k) ks + 1

/-- `count_unique_across_runs`: early return 0 on an empty run set (no
file is opened), otherwise fold the adjacency count over the k-way merge
emission. -/
def countUniqueAcrossRuns (runs : List (List Key)) : Nat :=
  if runs = [] then 0 else countUniqLoop none (kwayMerge runs)

theorem card_insert_eq_card_erase_add_one {α : Type} [DecidableEq α]
    (s : Finset α) (a : α) : (insert a s).card = (s.erase a).card + 1 := by
  have h1 : insert a s = insert a (s.erase a) := by
    ext x
    by_cases hx : x = a <;> simp [hx]
  rw [h1, Finset.card_insert_of_not_mem (Finset.not_mem_erase a _)]

theorem countUniqLoop_some : ∀ (ks : List Key) (p : Key),
    ks.Sorted keyLe → (∀ x ∈ ks, keyLe p x) →
    countUniqLoop (some p) ks = (ks.toFinset.erase p).card := by
  intro ks
  induction ks with
  | nil => intro p _ _; simp [countUniqLoop]
  | cons k ks' ih =>
    intro p hsort hle
    have hsort' : ks'.Sorted keyLe := hsort.of_cons
    have hk_le : ∀ x ∈ ks', keyLe k x := List.rel_of_sorted_cons hsort
    by_cases hpk : p = k
    · subst hpk
      have : countUniqLoop (some p) (p :: ks') = countUniqLoop (some p) ks' := by
        simp [countUniqLoop]
      rw [this, ih p hsort' hk_le]
      rw [List.toFinset_cons, Finset.erase_insert_eq_erase]
    · have hne : (some p : Option Key) ≠ some k := by simpa using hpk
      have : countUniqLoop (some p) (k :: ks') = countUniqLoop (some k) ks' + 1 := by
        simp [countUniqLoop, hne]
      rw [this, ih k hsort' hk_le]
      have hpk_le : keyLe p k := hle k (List.mem_cons_self _ _)
      have hpnot : p ∉ insert k ks'.toFinset := by
        simp only [Finset.mem_insert, List.mem_toFinset]
        rintro (h0 | h0)
        · exact hpk h0
        · exact hpk (keyLe_antisymm hpk_le (hk_le p h0))
      rw [List.toFinset_cons, Finset.erase_eq_of_not_mem hpnot]
      exact (card_insert_eq_card_erase_add_one _ _).symm

theorem countUniqLoop_sorted : ∀ ks : List Key,
    ks.Sorted keyLe → countUniqLoop none ks = ks.toFinset.card := by
  intro ks
  cases ks with
  | nil => simp [countUniqLoop]
  | cons k ks' =>
    intro hsort
    have hsort' : ks'.Sorted keyLe := hsort.of_cons
    have hk_le : ∀ x ∈ ks', keyLe k x := List.rel_of_sorted_cons hsort
    have : countUniqLoop (none : Option Key) (k :: ks') = countUniqLoop (some k) ks' + 1 := by
      simp [countUniqLoop]
    rw [this, countUniqLoop_some ks' k hsort' hk_le, List.toFinset_cons]
    exact (card_insert_eq_card_erase_add_one _ _).symm

/-- The error raised by the external encoder (`socket.inet_pton` inside
`ipv6_to_packed` raises `OSError`).  The payload is whatever the encoder
attaches; the pipeline itself never constructs or modifies one. -/
structure EncodingError where
  message : String
deriving DecidableEq

/-- ASCII whitespace stripped by Python's `str.strip()` (the input file is
opened with `encoding="ascii"`, so only these characters can occur). -/
def isPySpace (c : Char) : Bool :=
  c = ' ' || c = '\t' || c = '\n' || c = '\r' || c = '\x0b' || c = '\x0c'

/-- Python `line.strip()`: drop leading and trailing whitespace. -/
def pyStrip (s : String) : String :=
  ⟨((s.data.dropWhile isPySpace).reverse.dropWhile isPySpace).reverse⟩

/-- `flush_run`: `buf.sort()` sorts the buffer ascending by `bytes`
comparison and the run file receives exactly the sorted records.  Since
equal keys are byte-identical values, the ascending reordering of a buffer
is unique, so any correct sort denotes the same list; we use insertion
sort. -/
def flushRun (buf : List Key) : List Key :=
  List.insertionSort keyLe buf

/-- The loop body of `generate_initial_runs`: walk the remaining lines
with the current in-memory buffer `buf`, strip each line, skip empty
results, encode, flush a run whenever the buffer reaches `chunkRecords`,
and flush the non-empty remainder at end of input.  An encoder failure
propagates (the Python exception aborts the loop). -/
def buildRuns (encode : String → Except EncodingError Key) (chunkRecords : Nat) :
    List String → List Key → Except EncodingError (List (List Key))
  | [], buf => if buf.isEmpty then .ok [] else .ok [flushRun buf]
  | line :: rest, buf =>
    let s := pyStrip line
    if s = "" then buildRuns encode chunkRecords rest buf
    else
      match encode s with
      | .error e => .error e
      | .ok k =>
        let buf' := buf ++ [k]
        if chunkRecords ≤ buf'.length then
          (buildRuns encode chunkRecords rest []).map (fun rs => flushRun buf' :: rs)
        else buildRuns encode chunkRecords rest buf'

/-- `generate_initial_runs`: start with an empty buffer. -/
def generateInitialRuns (encode : String → Except EncodingError Key)
    (lines : List String) (chunkRecords : Nat) : Except EncodingError (List (List Key)) :=
  buildRuns encode chunkRecords lines []

/-- The stream of keys the builder encodes, in arrival order: each line is
stripped, blank results are skipped, the rest are encoded; the first
encoder failure is the stream's failure. -/
def encodedKeys (encode : String → Except EncodingError Key) :
    List String → Except EncodingError (List Key)
  | [] => .ok []
  | line :: rest =>
    let s := pyStrip line
    if s = "" then encodedKeys encode rest
    else
      match encode s with
      | .error e => .error e
      | .ok k =>
        match encodedKeys encode rest with
        | .error e => .error e
        | .ok ks => .ok (k :: ks)

theorem buildRuns_ok (encode : String → Except EncodingError Key) (chunkRecords : Nat) :
    ∀ (lines : List String) (buf : List Key) (ks : List Key),
    encodedKeys encode lines = .ok ks →
    ∃ runs, buildRuns encode chunkRecords lines buf = .ok runs ∧
      (∀ r ∈ runs, r.Sorted keyLe) ∧ (∀ r ∈ runs, r ≠ []) ∧
      runs.flatten.Perm (buf ++ ks) := by
  intro lines
  induction lines with
  | nil =>
    intro buf ks hks
    have hks0 : ks = [] := by
      simpa [encodedKeys] using hks.symm
    subst hks0
    by_cases hbuf : buf.isEmpty
    · refine ⟨[], ?_, by simp, by simp, ?_⟩
      · simp [buildRuns, hbuf]
      · have : buf = [] := by simpa [List.isEmpty_iff] using hbuf
        simp [this]
    · refine ⟨[flushRun buf], ?_, ?_, ?_, ?_⟩
      · simp [buildRuns, hbuf]
      · intro r hr
        rcases List.mem_singleton.mp hr with rfl
        exact List.sorted_insertionSort keyLe buf
      · intro r hr
        rcases List.mem_singleton.mp hr with rfl
        intro hnil
        have hperm : (flushRun buf).Perm buf := List.perm_insertionSort keyLe buf
        rw [hnil] at hperm
        have : buf = [] := hperm.symm.eq_nil
        exact hbuf (by simp [this])
      · simpa using List.perm_insertionSort keyLe buf
  | cons line rest ih =>
    intro buf ks hks
    simp only [encodedKeys] at hks
    simp only [buildRuns]
    by_cases hs : pyStrip line = ""
    · rw [if_pos hs] at hks
      rw [if_pos hs]
      exact ih buf ks hks
    · rw [if_neg hs] at hks
      rw [if_neg hs]
      cases henc : encode (pyStrip line) with
      | error e => rw [henc] at hks; exact absurd hks (by simp)
      | ok k =>
        rw [henc] at hks
        dsimp only
        cases hrest : encodedKeys encode rest with
        | error e => rw [hrest] at hks; exact absurd hks (by simp)
        | ok ks' =>
          rw [hrest] at hks
          simp only [Except.ok.injEq] at hks
          subst hks
          by_cases hflush : chunkRecords ≤ (buf ++ [k]).length
          · rw [if_pos hflush]
            obtain ⟨runs', hok, hsorted, hne, hperm⟩ := ih [] ks' hrest
            refine ⟨flushRun (buf ++ [k]) :: runs', ?_, ?_, ?_, ?_⟩
            · simp [hok, Except.map]
            · intro r hr
              rcases List.mem_cons.mp hr with rfl | h0
              · exact List.sorted_insertionSort keyLe _
              · exact hsorted r h0
            · intro r hr
              rcases List.mem_cons.mp hr with rfl | h0
              · intro hnil
                have hp : (flushRun (buf ++ [k])).Perm (buf ++ [k]) :=
                  List.perm_insertionSort keyLe _
                rw [hnil] at hp
                have := hp.symm.eq_nil
                simp at this
              · exact hne r h0
            · simp only [List.flatten_cons]
              have h1 : (flushRun (buf ++ [k])).Perm (buf ++ [k]) :=
                List.perm_insertionSort keyLe _
              have h2 : (flushRun (buf ++ [k]) ++ runs'.flatten).Perm
                  ((buf ++ [k]) ++ ([] ++ ks')) := h1.append hperm
              simpa using h2
          · rw [if_neg hflush]
            obtain ⟨runs', hok, hsorted, hne, hperm⟩ := ih (buf ++ [k]) ks' hrest
            refine ⟨runs', hok, hsorted, hne, ?_⟩
            have : buf ++ [k] ++ ks' = buf ++ k :: ks' := by simp
            rw [← this]
            exact hperm

theorem buildRuns_err (encode : String → Except EncodingError Key) (chunkRecords : Nat) :
    ∀ (lines : List String) (buf : List Key) (e : EncodingError),
    encodedKeys encode lines = .error e →
    buildRuns encode chunkRecords lines buf = .error e := by
  intro lines
  induction lines with
  | nil => intro buf e h; exact absurd h (by simp [encodedKeys])
  | cons line rest ih =>
    intro buf e h
    simp only [encodedKeys] at h
    simp only [buildRuns]
    by_cases hs : pyStrip line = ""
    · rw [if_pos hs] at h
      rw [if_pos hs]
      exact ih buf e h
    · rw [if_neg hs] at h
      rw [if_neg hs]
      cases henc : encode (pyStrip line) with
      | error e' =>
        rw [henc] at h
        simp only [Except.error.injEq] at h
        subst h
        rfl
      | ok k =>
        rw [henc] at h
        dsimp only
        cases hrest : encodedKeys encode rest with
        | error e' =>
          rw [hrest] at h
          simp only [Except.error.injEq] at h
          subst h
          by_cases hflush : chunkRecords ≤ (buf ++ [k]).length
          · rw [if_pos hflush, ih [] e' hrest]
            rfl
          · rw [if_neg hflush]
            exact ih (buf ++ [k]) e' hrest
        | ok ks' => rw [hrest] at h; exact absurd h (by simp)

theorem encodedKeys_length (encode : String → Except EncodingError Key) :
    ∀ (lines : List String) (ks : List Key),
    encodedKeys encode lines = .ok ks → ks.length ≤ lines.length := by
  intro lines
  induction lines with
  | nil =>
    intro ks h
    have : ks = [] := by simpa [encodedKeys] using h.symm
    simp [this]
  | cons line rest ih =>
    intro ks h
    simp only [encodedKeys] at h
    by_cases hs : pyStrip line = ""
    · rw [if_pos hs] at h
      exact Nat.le_succ_of_le (ih ks h)
    · rw [if_neg hs] at h
      cases henc : encode (pyStrip line) with
      | error e => rw [henc] at h; exact absurd h (by simp)
      | ok k =>
        rw [henc] at h
        cases hrest : encodedKeys encode rest with
        | error e => rw [hrest] at h; exact absurd h (by simp)
        | ok ks' =>
          rw [hrest] at h
          simp only [Except.ok.injEq] at h
          subst h
          simpa using Nat.succ_le_succ (ih ks' hrest)

theorem nonempty_flatten_length (runs : List (List Key)) (h : ∀ r ∈ runs, r ≠ []) :
    runs.length ≤ runs.flatten.length := by
  induction runs with
  | nil => simp
  | cons r rs ih =>
    have hr : r ≠ [] := h r (List.mem_cons_self _ _)
    have h1 : 1 ≤ r.length := by
      cases r with
      | nil => exact absurd rfl hr
      | cons a t => simp
    have := ih (fun q hq => h q (List.mem_cons_of_mem _ hq))
    simp only [List.length_cons, List.flatten_cons, List.length_append]
    omega

/-- The batch slicing `runs[batch_start : batch_start + fan_in]` for
`batch_start in range(0, len(runs), fan_in)`, with a fuel that is at least
`runs.length` (each slice consumes at least one run when `fanIn >= 1`;
Python raises `ValueError` on a zero step, so `fanIn = 0` never occurs
there). -/
def toBatchesGo : Nat → Nat → List (List Key) → List (List (List Key))
  | 0, _, _ => []
  | fuel + 1, fanIn, runs =>
    if runs = [] then []
    else runs.take fanIn :: toBatchesGo fuel fanIn (runs.drop fanIn)

/-- All consecutive batches of at most `fanIn` runs. -/
def toBatches (fanIn : Nat) (runs : List (List Key)) : List (List (List Key)) :=
  toBatchesGo runs.length fanIn runs

/-- One pass of the `while` loop of `reduce_runs`: merge every batch into
one new run (the batch's input files are then deleted; at record level the
new generation is exactly the per-batch merges). -/
def reducePass (runs : List (List Key)) (fanIn : Nat) : List (List Key) :=
  (toBatches fanIn runs).map mergeRunsToFile

/-- `reduce_runs`: repeat `reducePass` while `len(runs) > fan_in`.  The
fuel bounds the number of passes; `none` means the loop is still running
after `fuel` passes (for `fanIn >= 2` a fuel of `runs.length` always
suffices, see `reduceRuns_terminates`). -/
def reduceRuns (fanIn : Nat) : Nat → List (List Key) → Option (List (List Key))
  | 0, runs => if fanIn < runs.length then none else some runs
  | fuel + 1, runs =>
    if fanIn < runs.length then reduceRuns fanIn fuel (reducePass runs fanIn)
    else some runs

theorem toBatchesGo_flatten : ∀ (fuel fanIn : Nat) (runs : List (List Key)),
    1 ≤ fanIn → runs.length ≤ fuel → (toBatchesGo fuel fanIn runs).flatten = runs := by
  intro fuel
  induction fuel with
  | zero =>
    intro fanIn runs _ hlen
    have : runs = [] := List.length_eq_zero.mp (Nat.le_zero.mp hlen)
    simp [toBatchesGo, this]
  | succ n ih =>
    intro fanIn runs hfan hlen
    by_cases hnil : runs = []
    · simp [toBatchesGo, hnil]
    · have hpos : 1 ≤ runs.length := by
        cases runs with
        | nil => exact absurd rfl hnil
        | cons r rs => simp
      simp only [toBatchesGo, if_neg hnil, List.flatten_cons]
      rw [ih fanIn (runs.drop fanIn) hfan (by simp; omega)]
      exact List.take_append_drop fanIn runs

theorem toBatchesGo_length : ∀ (fuel fanIn : Nat) (runs : List (List Key)),
    1 ≤ fanIn → (toBatchesGo fuel fanIn runs).length ≤ runs.length := by
  intro fuel
  induction fuel with
  | zero => intro fanIn runs _; simp [toBatchesGo]
  | succ n ih =>
    intro fanIn runs hfan
    by_cases hnil : runs = []
    · simp [toBatchesGo, hnil]
    · have hpos : 1 ≤ runs.length := by
        cases runs with
        | nil => exact absurd rfl hnil
        | cons r rs => simp
      simp only [toBatchesGo, if_neg hnil, List.length_cons]
      have := ih fanIn (runs.drop fanIn) hfan
      simp only [List.length_drop] at this
      omega

theorem toBatchesGo_length_lt : ∀ (fuel fanIn : Nat) (runs : List (List Key)),
    2 ≤ fanIn → fanIn < runs.length → 1 ≤ fuel →
    (toBatchesGo fuel fanIn runs).length < runs.length := by
  intro fuel
  cases fuel with
  | zero => intro fanIn runs _ _ h; omega
  | succ n =>
    intro fanIn runs hfan hlen _
    have hnil : runs ≠ [] := by
      intro h; rw [h] at hlen; simp at hlen
    simp only [toBatchesGo, if_neg hnil, List.length_cons]
    have := toBatchesGo_length n fanIn (runs.drop fanIn) (by omega)
    simp only [List.length_drop] at this
    omega

theorem toBatchesGo_mem : ∀ (fuel fanIn : Nat) (runs : List (List Key))
    (b : List (List Key)) (r : List Key),
    b ∈ toBatchesGo fuel fanIn runs → r ∈ b → r ∈ runs := by
  intro fuel
  induction fuel with
  | zero => intro fanIn runs b r hb _; simp [toBatchesGo] at hb
  | succ n ih =>
    intro fanIn runs b r hb hr
    by_cases hnil : runs = []
    · rw [hnil] at hb; simp [toBatchesGo] at hb
    · simp only [toBatchesGo, if_neg hnil] at hb
      rcases List.mem_cons.mp hb with rfl | h0
      · exact List.mem_of_mem_take hr
      · exact List.mem_of_mem_drop (ih fanIn (runs.drop fanIn) b r h0 hr)

theorem map_merge_flatten_perm : ∀ bs : List (List (List Key)),
    ((bs.map mergeRunsToFile).flatten).Perm bs.flatten.flatten := by
  intro bs
  induction bs with
  | nil => simp
  | cons b rest ih =>
    simp only [List.map_cons, List.flatten_cons, List.flatten_append]
    exact (kwayMerge_perm b).append ih

theorem reducePass_perm (runs : List (List Key)) (fanIn : Nat) (hfan : 1 ≤ fanIn) :
    (reducePass runs fanIn).flatten.Perm runs.flatten := by
  unfold reducePass
  have h1 := map_merge_flatten_perm (toBatches fanIn runs)
  unfold toBatches at h1 ⊢
  rw [toBatchesGo_flatten runs.length fanIn runs hfan (Nat.le_refl _)] at h1
  exact h1

theorem reducePass_length (runs : List (List Key)) (fanIn : Nat) (hfan : 1 ≤ fanIn) :
    (reducePass runs fanIn).length ≤ runs.length := by
  unfold reducePass toBatches
  rw [List.length_map]
  exact toBatchesGo_length runs.length fanIn runs hfan

theorem reducePass_length_lt (runs : List (List Key)) (fanIn : Nat)
    (hfan : 2 ≤ fanIn) (hlen : fanIn < runs.length) :
    (reducePass runs fanIn).length < runs.length := by
  unfold reducePass toBatches
  rw [List.length_map]
  exact toBatchesGo_length_lt runs.length fanIn runs hfan hlen (by omega)

theorem reducePass_sorted (runs : List (List Key)) (fanIn : Nat)
    (hsort : ∀ r ∈ runs, r.Sorted keyLe) :
    ∀ r ∈ reducePass runs fanIn, r.Sorted keyLe := by
  intro r hr
  unfold reducePass at hr
  rcases List.mem_map.mp hr with ⟨b, hb, rfl⟩
  exact kwayMerge_sorted b (fun q hq => hsort q (toBatchesGo_mem _ _ _ b q hb hq))

theorem reduceRuns_some (fanIn : Nat) : ∀ (fuel : Nat) (runs out : List (List Key)),
    1 ≤ fanIn → reduceRuns fanIn fuel runs = some out →
    out.length ≤ fanIn ∧ out.flatten.Perm runs.flatten ∧
      ((∀ r ∈ runs, r.Sorted keyLe) → ∀ r ∈ out, r.Sorted keyLe) := by
  intro fuel
  induction fuel with
  | zero =>
    intro runs out hfan h
    simp only [reduceRuns] at h
    split at h
    · exact absurd h (by simp)
    · rename_i hguard
      simp only [Option.some.injEq] at h
      subst h
      exact ⟨by omega, List.Perm.refl _, fun hs => hs⟩
  | succ n ih =>
    intro runs out hfan h
    simp only [reduceRuns] at h
    split at h
    · obtain ⟨h1, h2, h3⟩ := ih (reducePass runs fanIn) out hfan h
      exact ⟨h1, h2.trans (reducePass_perm runs fanIn hfan),
        fun hs => h3 (reducePass_sorted runs fanIn hs)⟩
    · rename_i hguard
      simp only [Option.some.injEq] at h
      subst h
      exact ⟨by omega, List.Perm.refl _, fun hs => hs⟩

theorem reduceRuns_terminates (fanIn : Nat) (hfan : 2 ≤ fanIn) :
    ∀ (fuel : Nat) (runs : List (List Key)), runs.length ≤ fuel →
    ∃ out, reduceRuns fanIn fuel runs = some out := by
  intro fuel
  induction fuel with
  | zero =>
    intro runs hlen
    refine ⟨runs, ?_⟩
    simp only [reduceRuns]
    rw [if_neg (by omega)]
  | succ n ih =>
    intro runs hlen
    by_cases hguard : fanIn < runs.length
    · have hlt := reducePass_length_lt runs fanIn hfan hguard
      obtain ⟨out, hout⟩ := ih (reducePass runs fanIn) (by omega)
      refine ⟨out, ?_⟩
      simp only [reduceRuns]
      rw [if_pos hguard]
      exact hout
    · refine ⟨runs, ?_⟩
      simp only [reduceRuns]
      rw [if_neg hguard]

/-- `reducePass` with `fanIn = 1` is the identity on the run set: every
batch is a single run and the degenerate merge copies it. -/
theorem reducePass_one (runs : List (List Key)) : reducePass runs 1 = runs := by
  unfold reducePass toBatches
  suffices h : ∀ (fuel : Nat) (rs : List (List Key)), rs.length ≤ fuel →
      (toBatchesGo fuel 1 rs).map mergeRunsToFile = rs by
    exact h runs.length runs (Nat.le_refl _)
  intro fuel
  induction fuel with
  | zero =>
    intro rs hlen
    have : rs = [] := List.length_eq_zero.mp (Nat.le_zero.mp hlen)
    simp [toBatchesGo, this]
  | succ n ih =>
    intro rs hlen
    cases rs with
    | nil => simp [toBatchesGo]
    | cons r rest =>
      simp only [toBatchesGo, if_neg (by simp : (r :: rest : List (List Key)) ≠ []),
        List.take_succ_cons, List.take_zero, List.drop_succ_cons, List.drop_zero,
        List.map_cons]
      rw [mergeRunsToFile_single, ih rest (by simpa using Nat.le_of_succ_le_succ hlen)]

/-- Observable outcome of one invocation of `count_unique_ipv6_external`. -/
inductive OrchResult where
  /-- The function returned this count. -/
  | returns (n : Nat)
  /-- An encoding error propagated out of the pipeline. -/
  | fails (e : EncodingError)
  /-- The internal `reduce_runs` loop never exits (no exit path is taken). -/
  | diverges
deriving DecidableEq

/-- The externally visible effects of one invocation: the result, the
content written to `output_path` (if any), whether the temporary
workspace was deleted in the `finally` block, and whether its path was
reported (`keep_tmp` mode prints it instead of deleting). -/
structure OrchOut where
  result : OrchResult
  written : Option String
  tmpDeleted : Bool
  tmpReported : Bool
deriving DecidableEq

/-- `count_unique_ipv6_external`: build runs, reduce them, count, write
`str(ans) + "\n"` to the output sink, with a `try/finally` that on every
exit path deletes the workspace (or, with `keep_tmp`, reports it).  When
the reducer loop never exits (modelled by `reduceRuns _ fuel _ = none`
for the given pass budget), no exit path is taken: nothing is written and
the `finally` block is never reached. -/
def countUniqueIpv6External (encode : String → Except EncodingError Key)
    (lines : List String) (chunkRecords fanIn : Nat) (keepTmp : Bool)
    (fuel : Nat) : OrchOut :=
  match generateInitialRuns encode lines chunkRecords with
  | .error e => ⟨.fails e, none, !keepTmp, keepTmp⟩
  | .ok runs =>
    match reduceRuns fanIn fuel runs with
    | none => ⟨.diverges, none, false, false⟩
    | some finalRuns =>
      let ans := countUniqueAcrossRuns finalRuns
      ⟨.returns ans, some (toString ans ++ "\n"), !keepTmp, keepTmp⟩

/-- Byte-level model of reading one run file record by record:
`f.read(RECORD_SIZE)` returns the next (up to) 16 bytes and the empty
`bytes` only at end of file — a final chunk shorter than 16 bytes is
returned as is, there is no error path.  The fuel is the file length. -/
def fileRecordsGo : Nat → List Nat → List Key
  | 0, _ => []
  | fuel + 1, bs =>
    if bs = [] then []
    else bs.take RECORD_SIZE :: fileRecordsGo fuel (bs.drop RECORD_SIZE)

/-- The sequence of records `read(RECORD_SIZE)` yields on a byte file. -/
def fileRecords (bs : List Nat) : List Key :=
  fileRecordsGo bs.length bs

/-- `merge_runs_to_file` at byte level: the bytes written to `out_path`
are the concatenation of the records the merge emits over the files'
record streams. -/
def mergeRunsToFileBytes (files : List (List Nat)) : List Nat :=
  (kwayMerge (files.map fileRecords)).flatten

/-- `count_unique_across_runs` at byte level: records are read with
`read(RECORD_SIZE)` from each file and fed through the same heap loop and
adjacency counter. -/
def countUniqueAcrossRunFiles (files : List (List Nat)) : Nat :=
  if files = [] then 0 else countUniqLoop none (kwayMerge (files.map fileRecords))

theorem fileRecordsGo_flatten : ∀ (fuel : Nat) (bs : List Nat),
    bs.length ≤ fuel → (fileRecordsGo fuel bs).flatten = bs := by
  intro fuel
  induction fuel with
  | zero =>
    intro bs hlen
    have : bs = [] := List.length_eq_zero.mp (Nat.le_zero.mp hlen)
    simp [fileRecordsGo, this]
  | succ n ih =>
    intro bs hlen
    by_cases hnil : bs = []
    · simp [fileRecordsGo, hnil]
    · have hpos : 1 ≤ bs.length := by
        cases bs with
        | nil => exact absurd rfl hnil
        | cons b t => simp
      simp only [fileRecordsGo, if_neg hnil, List.flatten_cons]
      rw [ih (bs.drop RECORD_SIZE) (by simp [RECORD_SIZE]; omega)]
      exact List.take_append_drop RECORD_SIZE bs

theorem fileRecords_flatten (bs : List Nat) : (fileRecords bs).flatten = bs :=
  fileRecordsGo_flatten bs.length bs (Nat.le_refl _)

theorem getLast?_cons_ne_nil {α : Type} (a : α) :
    ∀ l : List α, l ≠ [] → (a :: l).getLast? = l.getLast?
  | [], h => absurd rfl h
  | _ :: _, _ => List.getLast?_cons_cons

theorem fileRecordsGo_shape : ∀ (fuel : Nat) (bs : List Nat),
    bs.length ≤ fuel → bs.length % 16 ≠ 0 →
    (fileRecordsGo fuel bs).length = bs.length / 16 + 1 ∧
    ∃ tail, (fileRecordsGo fuel bs).getLast? = some tail ∧
      tail.length = bs.length % 16 := by
  intro fuel
  induction fuel with
  | zero =>
    intro bs hlen hmod
    have : bs = [] := List.length_eq_zero.mp (Nat.le_zero.mp hlen)
    rw [this] at hmod
    simp at hmod
  | succ n ih =>
    intro bs hlen hmod
    have hnil : bs ≠ [] := by
      intro h; rw [h] at hmod; simp at hmod
    simp only [fileRecordsGo, RECORD_SIZE, if_neg hnil]
    by_cases hshort : bs.length < 16
    · have hdrop : bs.drop 16 = [] := by
        apply List.eq_nil_of_length_eq_zero
        simp
        omega
      have htake : bs.take 16 = bs := List.take_of_length_le (by omega)
      have hdiv : bs.length / 16 = 0 := Nat.div_eq_of_lt hshort
      have hmod2 : bs.length % 16 = bs.length := Nat.mod_eq_of_lt hshort
      constructor
      · rw [hdrop, hdiv]
        cases n <;> simp [fileRecordsGo]
      · refine ⟨bs, ?_, by rw [hmod2]⟩
        rw [htake, hdrop]
        cases n <;> simp [fileRecordsGo]
    · have hlen16 : 16 ≤ bs.length := by omega
      have hdroplen : (bs.drop 16).length = bs.length - 16 := by simp
      have hmod2 : (bs.drop 16).length % 16 ≠ 0 := by
        rw [hdroplen]
        intro hc
        apply hmod
        omega
      obtain ⟨hlen2, tail, hlast, htail⟩ := ih (bs.drop 16)
        (by rw [hdroplen]; omega) hmod2
      have hne : fileRecordsGo n (bs.drop 16) ≠ [] := by
        intro hc
        rw [hc] at hlast
        simp at hlast
      constructor
      · rw [List.length_cons, hlen2, hdroplen]
        omega
      · refine ⟨tail, ?_, ?_⟩
        · rw [getLast?_cons_ne_nil _ _ hne]
          exact hlast
        · rw [htail, hdroplen]
          omega

theorem fileRecords_shape (bs : List Nat) (hmod : bs.length % 16 ≠ 0) :
    (fileRecords bs).length = bs.length / 16 + 1 ∧
    ∃ tail, (fileRecords bs).getLast? = some tail ∧ tail.length = bs.length % 16 :=
  fileRecordsGo_shape bs.length bs (Nat.le_refl _) hmod

/-- Degenerate one-input merge at the `kwayMerge` level. -/
theorem kwayMerge_single (r : List Key) : kwayMerge [r] = r :=
  mergeRunsToFile_single r

/-- Concrete 16-byte keys used by witnesses. -/
def wKeyA : Key := List.replicate 15 0 ++ [1]

def wKeyB : Key := List.replicate 15 0 ++ [2]

def wKeyC : Key := List.replicate 15 0 ++ [3]

/-- A concrete always-succeeding encoder used by witnesses (the pipeline is
parametric in the external encoder). -/
def wEnc : String → Except EncodingError Key := fun s => .ok [s.length]

/-- A concrete encoder that fails on the line `"zz"` with the fixed
`inet_pton` message; like the real `socket.inet_pton`, its error is a
function of the address string alone (that is all it receives). -/
def wEncBad : String → Except EncodingError Key :=
  fun s =>
    if s = "zz" then .error ⟨"illegal IP address string passed to inet_pton"⟩
    else .ok [s.length]

/-- A 17-byte run file: length not a multiple of `RECORD_SIZE`. -/
def wTruncFile : List Nat := List.replicate 17 0

/-- C1: for every finite input sequence whose lines encode to the key list
`ks` (a multiset of valid fixed-width keys), every `batchSize >= 1` and
every `fanIn >= 2` (with enough reducer passes allowed, `lines.length`
always suffices), `count_unique_ipv6_external` returns exactly
`|set(ks)|`, the number of distinct encoded keys; since the result equals
`ks.toFinset.card` for every arrival order and batch boundary, it is
independent of input order and of how duplicates fall across batches. -/
theorem claim_c1 (encode : String → Except EncodingError Key) (lines : List String)
    (ks : List Key) (chunkRecords fanIn fuel : Nat) (keepTmp : Bool)
    (hchunk : 1 ≤ chunkRecords) (hfan : 2 ≤ fanIn)
    (henc : encodedKeys encode lines = .ok ks) (hfuel : lines.length ≤ fuel) :
    (countUniqueIpv6External encode lines chunkRecords fanIn keepTmp fuel).result =
      .returns ks.toFinset.card := by
  obtain ⟨runs, hok, hsorted, hne, hperm⟩ :=
    buildRuns_ok encode chunkRecords lines [] ks henc
  have hperm' : runs.flatten.Perm ks := by simpa using hperm
  have hrlen : runs.length ≤ fuel := by
    have h1 := nonempty_flatten_length runs hne
    have h2 : runs.flatten.length = ks.length := hperm'.length_eq
    have h3 := encodedKeys_length encode lines ks henc
    omega
  obtain ⟨out, hout⟩ := reduceRuns_terminates fanIn hfan fuel runs hrlen
  obtain ⟨hlen, hperm2, hsort2⟩ :=
    reduceRuns_some fanIn fuel runs out (by omega) hout
  have hcount : countUniqueAcrossRuns out = ks.toFinset.card := by
    unfold countUniqueAcrossRuns
    by_cases hnil : out = []
    · rw [if_pos hnil]
      rw [hnil] at hperm2
      have hrf : runs.flatten = [] := by
        have := hperm2.symm
        simpa using this.eq_nil
      rw [hrf] at hperm'
      have hks : ks = [] := hperm'.symm.eq_nil
      simp [hks]
    · rw [if_neg hnil]
      have hsortmerge : (kwayMerge out).Sorted keyLe :=
        kwayMerge_sorted out (hsort2 hsorted)
      rw [countUniqLoop_sorted _ hsortmerge]
      have hp : (kwayMerge out).Perm ks :=
        (kwayMerge_perm out).trans (hperm2.trans hperm')
      rw [List.toFinset_eq_of_perm _ _ hp]
  have hgen : generateInitialRuns encode lines chunkRecords = .ok runs := hok
  unfold countUniqueIpv6External
  rw [hgen]
  dsimp only
  rw [hout]
  dsimp only
  rw [hcount]

/-- Witness for C1 at a concrete input: three lines, two distinct keys,
`batchSize = 2`, `fanIn = 2`; the pipeline returns 2. -/
theorem claim_c1_witness :
    1 ≤ (2 : Nat) ∧ 2 ≤ (2 : Nat) ∧
    encodedKeys wEnc ["a", "bb", "a"] = .ok [[1], [2], [1]] ∧
    (["a", "bb", "a"] : List String).length ≤ 9 ∧
    (countUniqueIpv6External wEnc ["a", "bb", "a"] 2 2 false 9).result =
      .returns ([[1], [2], [1]] : List Key).toFinset.card :=
  ⟨by decide, by decide, rfl, by decide,
    claim_c1 wEnc ["a", "bb", "a"] [[1], [2], [1]] 2 2 9 false
      (by decide) (by decide) rfl (by decide)⟩

/-- C2: for every run set whose runs are each sorted ascending, the k-way
merge of `merge_runs_to_file` emits a non-decreasing (byte-lexicographic)
sequence whose multiset equals the multiset union of the inputs; in
particular its length is the sum of the runs' record counts. -/
theorem claim_c2 (runs : List (List Key)) (hsort : ∀ r ∈ runs, r.Sorted keyLe) :
    (mergeRunsToFile runs).Sorted keyLe ∧
    (mergeRunsToFile runs).Perm runs.flatten ∧
    (mergeRunsToFile runs).length = (runs.map List.length).sum :=
  ⟨kwayMerge_sorted runs hsort, kwayMerge_perm runs, kwayMerge_length runs⟩

/-- Witness for C2 on two concrete sorted 16-byte-key runs. -/
theorem claim_c2_witness :
    (∀ r ∈ [[wKeyA, wKeyC], [wKeyA, wKeyB]], List.Sorted keyLe r) ∧
    (mergeRunsToFile [[wKeyA, wKeyC], [wKeyA, wKeyB]]).Sorted keyLe ∧
    (mergeRunsToFile [[wKeyA, wKeyC], [wKeyA, wKeyB]]).Perm
      ([[wKeyA, wKeyC], [wKeyA, wKeyB]] : List (List Key)).flatten ∧
    (mergeRunsToFile [[wKeyA, wKeyC], [wKeyA, wKeyB]]).length =
      (([[wKeyA, wKeyC], [wKeyA, wKeyB]] : List (List Key)).map List.length).sum := by
  have h : ∀ r ∈ [[wKeyA, wKeyC], [wKeyA, wKeyB]], List.Sorted keyLe r := by decide
  exact ⟨h, claim_c2 _ h⟩

/-- C3: for `fanIn >= 1`, one reducer pass preserves the multiset of
records across the live run set (no deduplication in the reducer) and
never increases the run count; and whenever `reduce_runs` returns, the
returned run set has at most `fanIn` runs and still carries the same
record multiset. -/
theorem claim_c3 (runs : List (List Key)) (fanIn fuel : Nat) (hfan : 1 ≤ fanIn) :
    (reducePass runs fanIn).flatten.Perm runs.flatten ∧
    (reducePass runs fanIn).length ≤ runs.length ∧
    ∀ out, reduceRuns fanIn fuel runs = some out →
      out.length ≤ fanIn ∧ out.flatten.Perm runs.flatten :=
  ⟨reducePass_perm _ _ hfan, reducePass_length _ _ hfan, fun out hout =>
    ⟨(reduceRuns_some fanIn fuel runs out hfan hout).1,
     (reduceRuns_some fanIn fuel runs out hfan hout).2.1⟩⟩

/-- Witness for C3 on three concrete one-key runs with `fanIn = 2`. -/
theorem claim_c3_witness :
    1 ≤ (2 : Nat) ∧
    ((reducePass [[wKeyA], [wKeyB], [wKeyC]] 2).flatten.Perm
      ([[wKeyA], [wKeyB], [wKeyC]] : List (List Key)).flatten ∧
    (reducePass [[wKeyA], [wKeyB], [wKeyC]] 2).length ≤
      ([[wKeyA], [wKeyB], [wKeyC]] : List (List Key)).length ∧
    ∀ out, reduceRuns 2 2 [[wKeyA], [wKeyB], [wKeyC]] = some out →
      out.length ≤ 2 ∧ out.flatten.Perm
        ([[wKeyA], [wKeyB], [wKeyC]] : List (List Key)).flatten) :=
  ⟨by decide, claim_c3 [[wKeyA], [wKeyB], [wKeyC]] 2 2 (by decide)⟩

/-- C4: the claim says `reduce_runs` with `fanIn = 1` still terminates,
but the code loops forever whenever more than one run is live: with
`fan_in = 1` every batch is a single run, the degenerate merge copies it,
so `len(runs)` never changes and the guard `len(runs) > 1` stays true —
no pass budget ever makes the loop exit. -/
theorem claim_c4 (fuel : Nat) (runs : List (List Key)) (h : 2 ≤ runs.length) :
    reduceRuns 1 fuel runs = none := by
  induction fuel generalizing runs with
  | zero =>
    simp only [reduceRuns]
    rw [if_pos (by omega)]
  | succ n ih =>
    simp only [reduceRuns]
    rw [if_pos (by omega), reducePass_one]
    exact ih runs h

/-- Witness for C4: two concrete runs, `fan_in = 1`, five passes of budget,
and the loop still has not exited. -/
theorem claim_c4_witness :
    2 ≤ ([[wKeyA], [wKeyB]] : List (List Key)).length ∧
    reduceRuns 1 5 [[wKeyA], [wKeyB]] = none :=
  ⟨by decide, claim_c4 5 [[wKeyA], [wKeyB]] (by decide)⟩

/-- C5 counterexample: a 17-byte run file (length not a multiple of 16)
does not make the counting or merge pass fail — a count (2: the full
16-byte record plus the 1-byte short tail, counted as a record) is
produced, and the merge silently writes the same 17 truncated bytes. -/
theorem claim_c5_counterexample :
    wTruncFile.length % 16 ≠ 0 ∧
    countUniqueAcrossRunFiles [wTruncFile] = 2 ∧
    mergeRunsToFileBytes [wTruncFile] = wTruncFile := by decide

/-- C5 (amended): a run file whose byte length is not a multiple of the
16-byte record size is read without any error: `read(RECORD_SIZE)` yields
`len / 16` full records plus one final short record of `len % 16` bytes
(no byte dropped), and the counting pass simply processes that record
stream — it treats the short tail as a record instead of failing. -/
theorem claim_c5 (bs : List Nat) (hmod : bs.length % 16 ≠ 0) :
    (fileRecords bs).flatten = bs ∧
    (fileRecords bs).length = bs.length / 16 + 1 ∧
    (∃ tail, (fileRecords bs).getLast? = some tail ∧
      tail.length = bs.length % 16) ∧
    countUniqueAcrossRunFiles [bs] = countUniqLoop none (fileRecords bs) := by
  obtain ⟨h1, h2⟩ := fileRecords_shape bs hmod
  refine ⟨fileRecords_flatten bs, h1, h2, ?_⟩
  unfold countUniqueAcrossRunFiles
  rw [if_neg (by simp : ([bs] : List (List Nat)) ≠ [])]
  rw [List.map_cons, List.map_nil, kwayMerge_single]

/-- Witness for the amended C5 at a concrete 20-byte file. -/
theorem claim_c5_witness :
    (List.replicate 20 5 : List Nat).length % 16 ≠ 0 ∧
    ((fileRecords (List.replicate 20 5)).flatten = List.replicate 20 5 ∧
    (fileRecords (List.replicate 20 5)).length =
      (List.replicate 20 5 : List Nat).length / 16 + 1 ∧
    (∃ tail, (fileRecords (List.replicate 20 5)).getLast? = some tail ∧
      tail.length = (List.replicate 20 5 : List Nat).length % 16) ∧
    countUniqueAcrossRunFiles [List.replicate 20 5] =
      countUniqLoop none (fileRecords (List.replicate 20 5))) :=
  ⟨by decide, claim_c5 (List.replicate 20 5) (by decide)⟩

/-- C6 counterexample: the same encoder failure at different line numbers
(line 2 of the first input, line 1 of the second) produces bit-identical
observable outcomes, so the surfaced error does not carry enough context
to identify the offending line; the pipeline adds no positional
information to the encoder's own error. -/
theorem claim_c6_counterexample :
    countUniqueIpv6External wEncBad ["a", "zz", "b"] 2 2 false 9 =
      countUniqueIpv6External wEncBad ["zz", "a", "b"] 2 2 false 9 ∧
    (countUniqueIpv6External wEncBad ["a", "zz", "b"] 2 2 false 9).result =
      .fails ⟨"illegal IP address string passed to inet_pton"⟩ := by decide

/-- C6 (amended): if any line fails to encode, the pipeline aborts with
exactly the encoder's own error for the first failing stripped line — not
retried, not skipped, no count written — but the surfaced error carries no
added context (no line number): it is whatever the external encoder
raised. -/
theorem claim_c6 (encode : String → Except EncodingError Key)
    (lines : List String) (chunkRecords fanIn fuel : Nat) (keepTmp : Bool)
    (e : EncodingError) (henc : encodedKeys encode lines = .error e) :
    (countUniqueIpv6External encode lines chunkRecords fanIn keepTmp fuel).result =
      .fails e ∧
    (countUniqueIpv6External encode lines chunkRecords fanIn keepTmp fuel).written =
      none := by
  have hb : generateInitialRuns encode lines chunkRecords = .error e :=
    buildRuns_err encode chunkRecords lines [] e henc
  unfold countUniqueIpv6External
  rw [hb]
  exact ⟨rfl, rfl⟩

/-- Witness for the amended C6 at a concrete failing input. -/
theorem claim_c6_witness :
    encodedKeys wEncBad ["zz", "a"] =
      .error ⟨"illegal IP address string passed to inet_pton"⟩ ∧
    (countUniqueIpv6External wEncBad ["zz", "a"] 2 2 false 9).result =
      .fails ⟨"illegal IP address string passed to inet_pton"⟩ ∧
    (countUniqueIpv6External wEncBad ["zz", "a"] 2 2 false 9).written = none :=
  ⟨rfl, claim_c6 wEncBad ["zz", "a"] 2 2 9 false
    ⟨"illegal IP address string passed to inet_pton"⟩ rfl⟩

/-- C7: for empty input the Run Builder produces an empty run set (no run
file, not one empty run), the Unique Counter returns 0 on the empty run
set through its early-return branch (no file opened), and the whole
pipeline returns 0 and writes `"0\n"`. -/
theorem claim_c7 (encode : String → Except EncodingError Key)
    (chunkRecords fanIn fuel : Nat) (keepTmp : Bool) :
    generateInitialRuns encode [] chunkRecords = .ok [] ∧
    countUniqueAcrossRuns [] = 0 ∧
    countUniqueIpv6External encode [] chunkRecords fanIn keepTmp fuel =
      ⟨.returns 0, some "0\n", !keepTmp, keepTmp⟩ := by
  have hgen : generateInitialRuns encode [] chunkRecords = .ok [] := rfl
  have hred : reduceRuns fanIn fuel [] = some [] := by
    cases fuel <;> simp [reduceRuns]
  refine ⟨hgen, rfl, ?_⟩
  unfold countUniqueIpv6External
  rw [hgen]
  dsimp only
  rw [hred]
  rfl

/-- C8: on every exit path of the orchestrator — normal return and every
propagated error (the only non-exit is the diverging reducer loop) — the
`finally` block deletes the temporary workspace exactly when `keep_tmp`
is not set, and reports (prints) its path exactly when `keep_tmp` is
set. -/
theorem claim_c8 (encode : String → Except EncodingError Key) (lines : List String)
    (chunkRecords fanIn fuel : Nat) (keepTmp : Bool)
    (h : (countUniqueIpv6External encode lines chunkRecords fanIn keepTmp fuel).result ≠
      .diverges) :
    (countUniqueIpv6External encode lines chunkRecords fanIn keepTmp fuel).tmpDeleted =
      !keepTmp ∧
    (countUniqueIpv6External encode lines chunkRecords fanIn keepTmp fuel).tmpReported =
      keepTmp := by
  cases hgen : generateInitialRuns encode lines chunkRecords with
  | error e =>
    unfold countUniqueIpv6External
    rw [hgen]
    exact ⟨rfl, rfl⟩
  | ok runs =>
    cases hred : reduceRuns fanIn fuel runs with
    | none =>
      exfalso
      apply h
      unfold countUniqueIpv6External
      rw [hgen]
      dsimp only
      rw [hred]
    | some out =>
      unfold countUniqueIpv6External
      rw [hgen]
      dsimp only
      rw [hred]
      exact ⟨rfl, rfl⟩

/-- Witness for C8 at a concrete non-diverging invocation with
`keep_tmp = true`. -/
theorem claim_c8_witness :
    (countUniqueIpv6External wEnc ["a"] 1 2 true 5).result ≠ .diverges ∧
    (countUniqueIpv6External wEnc ["a"] 1 2 true 5).tmpDeleted = !true ∧
    (countUniqueIpv6External wEnc ["a"] 1 2 true 5).tmpReported = true := by
  have h : (countUniqueIpv6External wEnc ["a"] 1 2 true 5).result ≠ .diverges := by
    decide
  exact ⟨h, claim_c8 wEnc ["a"] 1 2 5 true h⟩

/-- C9: the pipeline is all-or-nothing towards its output sink: the output
file receives `str(count) + "\n"` exactly on the normal-return path, and
nothing at all when any stage fails (or the reducer loop never exits). -/
theorem claim_c9 (encode : String → Except EncodingError Key) (lines : List String)
    (chunkRecords fanIn fuel : Nat) (keepTmp : Bool) :
    (countUniqueIpv6External encode lines chunkRecords fanIn keepTmp fuel).written =
      match (countUniqueIpv6External encode lines chunkRecords fanIn keepTmp fuel).result
        with
      | .returns n => some (toString n ++ "\n")
      | .fails _ => none
      | .diverges => none := by
  unfold countUniqueIpv6External
  cases generateInitialRuns encode lines chunkRecords with
  | error e => rfl
  | ok runs =>
    dsimp only
    cases reduceRuns fanIn fuel runs with
    | none => rfl
    | some out => rfl

/-- C10: a line that strips to the empty string (empty or whitespace-only)
is skipped by the Run Builder: for every encoder it is never encoded,
produces no key, and removing it changes neither the produced run set nor
any observable outcome of the whole pipeline. -/
theorem claim_c10 (encode : String → Except EncodingError Key)
    (chunkRecords : Nat) (pre post : List String) (line : String)
    (hblank : pyStrip line = "") :
    generateInitialRuns encode (pre ++ line :: post) chunkRecords =
      generateInitialRuns encode (pre ++ post) chunkRecords ∧
    ∀ fanIn fuel keepTmp,
      countUniqueIpv6External encode (pre ++ line :: post) chunkRecords fanIn
          keepTmp fuel =
        countUniqueIpv6External encode (pre ++ post) chunkRecords fanIn
          keepTmp fuel := by
  have hbuild : ∀ (ls : List String) (buf : List Key),
      buildRuns encode chunkRecords (ls ++ line :: post) buf =
        buildRuns encode chunkRecords (ls ++ post) buf := by
    intro ls
    induction ls with
    | nil =>
      intro buf
      simp only [List.nil_append, buildRuns, hblank, if_pos]
    | cons l rest ih =>
      intro buf
      simp only [List.cons_append, buildRuns, List.append_eq]
      by_cases hs : pyStrip l = ""
      · rw [if_pos hs, if_pos hs]
        exact ih buf
      · rw [if_neg hs, if_neg hs]
        cases encode (pyStrip l) with
        | error e => rfl
        | ok k =>
          dsimp only
          by_cases hflush : chunkRecords ≤ (buf ++ [k]).length
          · rw [if_pos hflush, if_pos hflush, ih []]
          · rw [if_neg hflush, if_neg hflush]
            exact ih (buf ++ [k])
  constructor
  · exact hbuild pre []
  · intro fanIn fuel keepTmp
    unfold countUniqueIpv6External generateInitialRuns
    rw [hbuild pre []]

/-- Witness for C10 with the whitespace-only line `" \t "`. -/
theorem claim_c10_witness :
    pyStrip " \t " = "" ∧
    generateInitialRuns wEnc (["a"] ++ " \t " :: ["bb"]) 2 =
      generateInitialRuns wEnc (["a"] ++ ["bb"]) 2 :=
  ⟨by decide, (claim_c10 wEnc 2 ["a"] ["bb"] " \t " (by decide)).1⟩

end IPv6Uniq
